import Mathlib

/-!
Verification of the KDL pretty-printer (`src/printer.js`, the current
sigil-dialect printer preceding the legacy copy in the same file).

Strings are modelled as `List Char` (JavaScript strings over the characters
that occur in KDL documents).  The external trivia tokenizer of
`@bgotink/kdl` is kept abstract: printing functions that the source feeds
with `parse(text, { as: "whitespace in ..." })` receive the token list (or a
tokenizer function) as an argument.  The prettier layout algebra is embedded
as the `Doc` type with a renderer modelled from the spec's description of
the external layout collaborator.
-/

namespace KdlPrinter

/-- Inline whitespace class of the printer's `trimStart`/`trimEnd` regexes:
space, tab, U+FEFF, U+00A0, U+1680, U+2000..U+200A, U+202F, U+205F, U+3000. -/
def isInlineSpace (c : Char) : Bool :=
  c.toNat = 0x20 || c.toNat = 0x09 || c.toNat = 0xFEFF || c.toNat = 0xA0 ||
  c.toNat = 0x1680 || (0x2000 ≤ c.toNat && c.toNat ≤ 0x200A) ||
  c.toNat = 0x202F || c.toNat = 0x205F || c.toNat = 0x3000

/-- `trimStart` from src/printer.js: strip leading inline whitespace. -/
def trimStart (l : List Char) : List Char := l.dropWhile isInlineSpace

/-- `trimEnd` from src/printer.js: strip trailing inline whitespace. -/
def trimEnd (l : List Char) : List Char := (l.reverse.dropWhile isInlineSpace).reverse

/-- `trim` from src/printer.js. -/
def trim (l : List Char) : List Char := trimEnd (trimStart l)

/-- The probe string `'"' + "#".repeat(k)` used by the minimal-hash search. -/
def quoteHashes (k : Nat) : List Char := '"' :: List.replicate k '#'

/-- Does `l` start with `pat`? -/
def leadsWith : List Char → List Char → Bool
  | [], _ => true
  | _ :: _, [] => false
  | p :: ps, c :: cs => p = c && leadsWith ps cs

/-- JavaScript `haystack.includes(pat)`: `pat` occurs contiguously in `s`. -/
def containsSub (s pat : List Char) : Bool :=
  leadsWith pat s ||
    match s with
    | [] => false
    | _ :: rest => containsSub rest pat

/-- JavaScript `rawValue.includes('"' + "#".repeat(k))`. -/
def hasQH (s : List Char) (k : Nat) : Bool := containsSub s (quoteHashes k)

/-- The `while (rawValue.includes(...)) numberOfHashes++` loop, with fuel.
The loop in the source terminates because a probe longer than the string can
never be contained in it; `s.length + 1` steps always suffice. -/
def minHashesAux (s : List Char) : Nat → Nat → Nat
  | k, 0 => k
  | k, fuel + 1 => if hasQH s k then minHashesAux s (k + 1) fuel else k

/-- Number of hashes chosen by `printValue`/`printIdentifier` for content `s`. -/
def minHashes (s : List Char) : Nat := minHashesAux s 0 (s.length + 1)

/-- Lowercase hex digit, as produced by `JSON.stringify` unicode escapes. -/
def hexDigit (n : Nat) : Char := if n < 10 then Char.ofNat (48 + n) else Char.ofNat (87 + n)

/-- Escaping of one character under `JSON.stringify` (ECMAScript
QuoteJSONString): quote, backslash, the named control escapes, `\u00xx` for
the remaining control characters, all else verbatim. -/
def jsonEscapeChar (c : Char) : List Char :=
  if c = '"' then ['\\', '"']
  else if c = '\\' then ['\\', '\\']
  else if c.toNat = 8 then ['\\', 'b']
  else if c.toNat = 9 then ['\\', 't']
  else if c.toNat = 10 then ['\\', 'n']
  else if c.toNat = 12 then ['\\', 'f']
  else if c.toNat = 13 then ['\\', 'r']
  else if c.toNat < 32 then ['\\', 'u', '0', '0', hexDigit (c.toNat / 16), hexDigit (c.toNat % 16)]
  else [c]

/-- `JSON.stringify` on a string value. -/
def jsonStringify (s : List Char) : List Char :=
  '"' :: (s.map jsonEscapeChar).flatten ++ ['"']

/-- The raw-string form `"#".repeat(k) + '"' + s + '"' + "#".repeat(k)`. -/
def rawStringForm (k : Nat) (s : List Char) : List Char :=
  List.replicate k '#' ++ '"' :: s ++ '"' :: List.replicate k '#'

/-- JavaScript numbers as stored in KDL values.  The printer prints finite
numbers with `Number.prototype.toString`; finite values are modelled by the
exactly representable integers below 10^21, on which that conversion yields
the plain decimal numeral. -/
inductive JsNum where
  | nan : JsNum
  | posInf : JsNum
  | negInf : JsNum
  | int (n : Int) : JsNum
deriving DecidableEq

/-- Decimal numeral of a natural number (`Number.prototype.toString` on the
modelled integral range), via fuel over the digit count. -/
def natDecimalAux : Nat → Nat → List Char
  | _, 0 => []
  | n, fuel + 1 =>
    if n < 10 then [Char.ofNat (48 + n)]
    else natDecimalAux (n / 10) fuel ++ [Char.ofNat (48 + n % 10)]

/-- Decimal numeral of a natural number. -/
def natDecimal (n : Nat) : List Char := natDecimalAux n (n + 1)

/-- Decimal numeral of an integer. -/
def intDecimal (n : Int) : List Char :=
  if n < 0 then '-' :: natDecimal n.natAbs else natDecimal n.natAbs

/-- KDL values: a tagged union over null, boolean, string and number, as in
the `Value` nodes consumed by `printValue`. -/
inductive KValue where
  | null : KValue
  | bool (b : Bool) : KValue
  | str (s : List Char) : KValue
  | num (n : JsNum) : KValue
deriving DecidableEq

/-- `printValue` from src/printer.js: null/booleans become sigil keywords,
strings get the minimal-hash quoted/raw form, numbers print `#nan`, `#inf`,
`#-inf` or the decimal conversion of the stored value. -/
def printValue : KValue → List Char
  | .null => ['#', 'n', 'u', 'l', 'l']
  | .bool true => ['#', 't', 'r', 'u', 'e']
  | .bool false => ['#', 'f', 'a', 'l', 's', 'e']
  | .str s =>
    let k := minHashes s
    if k = 0 then jsonStringify s else rawStringForm k s
  | .num .nan => ['#', 'n', 'a', 'n']
  | .num .posInf => ['#', 'i', 'n', 'f']
  | .num .negInf => ['#', '-', 'i', 'n', 'f']
  | .num (.int n) => intDecimal n

/-- First-character class of `plainIdentifierRe`:
`[\x21\x23-\x27\x2A\x2B\x2D\x2E\x3A\x3F-\x5A\x5E-\x7A\x7C\x7E-￿]`
(under JavaScript UTF-16 matching, every character from `\x7E` up matches). -/
def firstIdentChar (c : Char) : Bool :=
  c.toNat = 0x21 || (0x23 ≤ c.toNat && c.toNat ≤ 0x27) || c.toNat = 0x2A ||
  c.toNat = 0x2B || c.toNat = 0x2D || c.toNat = 0x2E || c.toNat = 0x3A ||
  (0x3F ≤ c.toNat && c.toNat ≤ 0x5A) || (0x5E ≤ c.toNat && c.toNat ≤ 0x7A) ||
  c.toNat = 0x7C || 0x7E ≤ c.toNat

/-- Continuation-character class of `plainIdentifierRe`: the first class
widened by `\x30-\x3A` (digits and colon). -/
def contIdentChar (c : Char) : Bool :=
  firstIdentChar c || (0x30 ≤ c.toNat && c.toNat ≤ 0x3A)

/-- Decimal digit test for the `(?![+-][0-9])` lookahead. -/
def isDigitChar (c : Char) : Bool := 0x30 ≤ c.toNat && c.toNat ≤ 0x39

/-- `plainIdentifierRe.test(name)`: not a sign followed by a digit, a
first-class character, then continuation-class characters. -/
def plainIdentifier : List Char → Bool
  | [] => false
  | c :: cs =>
    !((c = '+' || c = '-') && (match cs with
        | c2 :: _ => isDigitChar c2
        | [] => false)) &&
    firstIdentChar c && cs.all contIdentChar

/-- The six reserved identifier spellings of src/printer.js. -/
def reservedIdentifiers : List (List Char) :=
  [['i', 'n', 'f'], ['-', 'i', 'n', 'f'], ['n', 'a', 'n'],
   ['t', 'r', 'u', 'e'], ['f', 'a', 'l', 's', 'e'], ['n', 'u', 'l', 'l']]

/-- Bare-identifier eligibility test of `printIdentifier`. -/
def bareIdentOk (s : List Char) : Bool :=
  decide (0 < s.length) && !(reservedIdentifiers.contains s) && plainIdentifier s

/-- `printIdentifier` from src/printer.js: bare if eligible, otherwise the
minimal-hash quoted/raw form — with the name interpolated verbatim between
the quotes (no `JSON.stringify` escaping, unlike string values). -/
def printIdentifier (s : List Char) : List Char :=
  if bareIdentOk s then s
  else
    let k := minHashes s
    if k = 0 then '"' :: s ++ ['"'] else rawStringForm k s

/-- Prettier's document algebra, as used by src/printer.js.  Modelled from
the spec: the layout-algebra collaborator of §6 (`group`, `indent`, `align`,
`line`, `hardline`, `hardlineWithoutBreakParent`, `ifBreak`, `breakParent`,
`join`); arrays of docs are modelled by `append`/`nil`. -/
inductive Doc where
  | nil : Doc
  | text (s : List Char) : Doc
  | append (a b : Doc) : Doc
  | line : Doc
  | hardline : Doc
  | hardlineNBP : Doc
  | ifBreak (whenBrk whenFlat : Doc) : Doc
  | breakParent : Doc
  | group (d : Doc) : Doc
  | indentD (d : Doc) : Doc
  | alignD (n : Nat) (d : Doc) : Doc
deriving DecidableEq

/-- A JavaScript doc array as one `Doc`. -/
def Doc.ofList : List Doc → Doc
  | [] => .nil
  | d :: ds => .append d (Doc.ofList ds)

/-- `builders.join(sep, items)`. -/
def joinDoc (sep : Doc) (ds : List Doc) : Doc := Doc.ofList (List.intersperse sep ds)

/-- The `continuation` doc of `printNode`: `builders.ifBreak(" \\")`. -/
def continuationDoc : Doc := Doc.ifBreak (Doc.text [' ', '\\']) Doc.nil

/-- Does this doc force every enclosing group to break?  `breakParent` and
`hardline` propagate a forced break; `hardlineWithoutBreakParent` does not. -/
def forcesBreak : Doc → Bool
  | .nil => false
  | .text _ => false
  | .append a b => forcesBreak a || forcesBreak b
  | .line => false
  | .hardline => true
  | .hardlineNBP => false
  | .ifBreak a b => forcesBreak a || forcesBreak b
  | .breakParent => true
  | .group d => forcesBreak d
  | .indentD d => forcesBreak d
  | .alignD _ d => forcesBreak d

/-- The line-terminator class of the block-comment split regex
LF, FF, CR,
NEL (U+0085), LS (U+2028) and PS (U+2029). -/
def isLineTerminator (c : Char) : Bool :=
  c.toNat = 0x0A || c.toNat = 0x0C || c.toNat = 0x0D ||
  c.toNat = 0x85 || c.toNat = 0x2028 || c.toNat = 0x2029

/-- Prepend a character to the first line of a split result. -/
def consHead (c : Char) : List (List Char) → List (List Char)
  | [] => [[c]]
  | l :: ls => (c :: l) :: ls

/-- The split of a block comment on line terminators: CRLF counts as one
terminator (the regex alternation tries it first), otherwise any single
terminator of the class splits. -/
def splitLines : List Char → List (List Char)
  | [] => [[]]
  | c :: rest =>
    if c.toNat = 0x0D then
      match rest with
      | c2 :: rest2 =>
        if c2.toNat = 0x0A then [] :: splitLines rest2 else [] :: splitLines (c2 :: rest2)
      | [] => [] :: splitLines []
    else if isLineTerminator c then [] :: splitLines rest
    else consHead c (splitLines rest)

/-- `lines.every((line, i) => i === 0 || trimStart(line).startsWith("*"))`. -/
def contLinesStarred (lines : List (List Char)) : Bool :=
  (lines.drop 1).all (fun l => leadsWith ['*'] (trimStart l))

/-- The block-comment rendering shared by `printLineSpace` (separator
`hardline`, trimming `trimStart`) and `addCommentToHeader` (separator
`hardlineWithoutBreakParent`, trimming `trim`): one line, or a continuation
line not starting with `*`, emits every line verbatim; otherwise the first
line is trimmed and each continuation line becomes one space plus its
trimmed content. -/
def formatBlockComment (sep : Doc) (tf : List Char → List Char) (text : List Char) : Doc :=
  let lines := splitLines text
  if lines.length = 1 || !contLinesStarred lines then
    joinDoc sep (lines.map Doc.text)
  else
    joinDoc sep
      (Doc.text (tf (lines.headD [])) :: (lines.drop 1).map (fun l => Doc.text (' ' :: tf l)))

/-- Document-level trivia tokens (`parse(text, { as: "whitespace in
document" })`).  The tokenizer is the external parser; a slashdash token
carries the doc produced by the recursive `printNode(whitespace.value)`
call, abstracted here as a payload doc. -/
inductive DTok where
  | newline : DTok
  | space : DTok
  | singleline (text : List Char) : DTok
  | multiline (text : List Char) : DTok
  | slashdash (payload : Doc) : DTok
deriving DecidableEq

/-- Node-level trivia tokens (`parse(text, { as: "whitespace in node" })`).
A line-escape token carries its full text (with the leading backslash) and
the document-level tokens of its remainder, as re-parsed by
`addCommentToHeader`; slashdash payloads (a printed entry, or a printed
child document) are abstracted as payload docs. -/
inductive NTok where
  | space : NTok
  | newline : NTok
  | singleline (text : List Char) : NTok
  | multiline (text : List Char) : NTok
  | lineEscape (text : List Char) (nested : List DTok) : NTok
  | slashdashEntry (payload : Doc) : NTok
  | slashdashChildren (payload : Doc) : NTok
deriving DecidableEq

/-- Well-formedness supplied by the external tokenizer: a single-line
comment token's text starts with `//`. -/
def DTokWf : DTok → Bool
  | .singleline t => leadsWith ['/', '/'] t
  | _ => true

/-- The scan state of `printLineSpace`: the emitted parts and the three
booleans `hasAddedEmptyLine`, `hasAddedNonEmptyContent`, `lastWasNewline`. -/
structure LSState where
  parts : List Doc
  hasEmpty : Bool
  hasContent : Bool
  lastNl : Bool
deriving DecidableEq

/-- One step of the `printLineSpace` loop of src/printer.js. -/
def lineSpaceStep (s : LSState) : DTok → LSState
  | .newline =>
    if s.lastNl && s.hasContent && !s.hasEmpty then
      { s with parts := s.parts ++ [Doc.text []], hasEmpty := true, lastNl := true }
    else { s with lastNl := true }
  | .space => s
  | .singleline t =>
    { parts := s.parts ++ [Doc.text (trim t.dropLast)],
      hasEmpty := false, hasContent := true, lastNl := true }
  | .multiline t =>
    { parts := s.parts ++ [formatBlockComment Doc.hardline trimStart t],
      hasEmpty := false, hasContent := true, lastNl := false }
  | .slashdash d =>
    { parts := s.parts ++ [Doc.ofList [Doc.text ['/', '-'], d]],
      hasEmpty := false, hasContent := true, lastNl := false }

/-- `printLineSpace(text, { previousWasNewline })` over the token stream. -/
def printLineSpaceD (toks : List DTok) (previousWasNewline : Bool) : List Doc :=
  (toks.foldl lineSpaceStep
    { parts := [], hasEmpty := false,
      hasContent := previousWasNewline, lastNl := previousWasNewline }).parts

/-- `toks.zip toks.tail` check: do two `newline` tokens occur adjacently? -/
def hasConsecNewlines (toks : List DTok) : Bool :=
  (toks.zip toks.tail).any (fun p => p.1 = DTok.newline && p.2 = DTok.newline)

/-- The mutable header of `printNode`: the committed header items, and
whether `lastHeaderItem` is the final element of `header` (pushes of the
continuation reach it) or a detached array (pushes are discarded, as for the
initial `[]` and after a single-line comment). -/
structure HState where
  items : List (List Doc)
  attached : Bool
deriving DecidableEq

/-- Apply a function to the last item of the header. -/
def mapLast (f : List Doc → List Doc) : List (List Doc) → List (List Doc)
  | [] => []
  | [x] => [f x]
  | x :: y :: xs => x :: mapLast f (y :: xs)

/-- `lastHeaderItem.push(continuation)`: reaches the last committed item
only while `lastHeaderItem` is attached. -/
def pushCont (s : HState) : HState :=
  if s.attached then
    { s with items := mapLast (fun it => it ++ [continuationDoc]) s.items }
  else s

/-- `lastHeaderItem.push(continuation); header.push(lastHeaderItem = it)`. -/
def pushItem (s : HState) (it : List Doc) : HState :=
  { items := (pushCont s).items ++ [it], attached := true }

/-- The nested loop of `addCommentToHeader` over the re-parsed content of a
line-escape token.  The `multiline` arm is faithful to the source's missing
`break`: it splits the outer line-escape text, pushes that comment, then
falls through into the `singleline` arm with the nested token's text. -/
def lineEscapeStep (outer : List Char) (s : HState) : DTok → HState
  | .multiline t =>
    let s1 := pushItem s [formatBlockComment Doc.hardlineNBP trim outer]
    let s2 := pushCont s1
    { items := s2.items ++
        [[Doc.breakParent, Doc.text ('\\' :: ' ' :: trim t.dropLast)]],
      attached := false }
  | .singleline t =>
    let s2 := pushCont s
    { items := s2.items ++
        [[Doc.breakParent, Doc.text ('\\' :: ' ' :: trim t.dropLast)]],
      attached := false }
  | _ => s

/-- One step of `addCommentToHeader` of src/printer.js.  Top-level `newline`
and `singleline` tokens have no switch case and are ignored. -/
def headerStep (s : HState) : NTok → HState
  | .space => s
  | .newline => s
  | .singleline _ => s
  | .lineEscape outer nested => nested.foldl (lineEscapeStep outer) s
  | .slashdashEntry d => pushItem s [Doc.text ['/', '-'], d]
  | .slashdashChildren d =>
    pushItem s
      [Doc.text ['/', '-'], Doc.ofList [Doc.text ['\x7b'], d, Doc.text ['\x7d']]]
  | .multiline t => pushItem s [formatBlockComment Doc.hardlineNBP trim t]

/-- prettier's `getStringWidth`.  Modelled from the spec: the display width
of a string, taken as the character count (all characters narrow). -/
def getStringWidth (s : List Char) : Nat := s.length

/-- JavaScript truthiness of an optional trivia string: `null`/`undefined`
and the empty string are falsy. -/
def truthyS : Option (List Char) → Bool
  | some (_ :: _) => true
  | _ => false

/-- Read an optional string with `?? ""`. -/
def orEmpty : Option (List Char) → List Char
  | some l => l
  | none => []

/-- A type tag (`node.tag` / `entry.tag`) with its inner trivia strings. -/
structure KTag where
  name : List Char
  leading : Option (List Char)
  trailing : Option (List Char)
deriving DecidableEq

/-- An entry: optional property name with its equals spelling, optional type
tag, a value, and its leading trivia string. -/
structure KEntry where
  name : Option (List Char)
  equals : Option (List Char)
  tag : Option KTag
  betweenTagAndValue : Option (List Char)
  value : KValue
  leading : Option (List Char)
deriving DecidableEq

/-- The children block of a node.  `hasNodes` is the `node.hasChildren()`
test, `trailingTruthy` the truthiness of `node.children.trailing`, and
`printed` the doc of the recursive `printDocument(node.children)` call,
abstracted as a payload doc. -/
structure KChildren where
  hasNodes : Bool
  trailingTruthy : Bool
  printed : Doc
deriving DecidableEq

/-- A node of the document tree consumed by `printNode`. -/
structure KNode where
  name : List Char
  tag : Option KTag
  betweenTagAndName : Option (List Char)
  entries : List KEntry
  children : Option KChildren
  leading : Option (List Char)
  beforeChildren : Option (List Char)
  trailing : Option (List Char)
deriving DecidableEq

/-- `printEntry` from src/printer.js: `[name equals]? [(tag)…]? value`,
joined as one string. -/
def printEntry (e : KEntry) : List Char :=
  (match e.name with
    | some nm => printIdentifier nm ++ (match e.equals with | some q => q | none => ['='])
    | none => []) ++
  (match e.tag with
    | some tag =>
      '(' :: trim (orEmpty tag.leading) ++ printIdentifier tag.name ++
        trim (orEmpty tag.trailing) ++ [')'] ++ trim (orEmpty e.betweenTagAndValue)
    | none => []) ++
  printValue e.value

/-- The node name string, with the optional `(tag)` prefix. -/
def nodeBaseName (n : KNode) : List Char :=
  match n.tag with
  | none => printIdentifier n.name
  | some tag =>
    '(' :: trim (orEmpty tag.leading) ++ printIdentifier tag.name ++
      trim (orEmpty tag.trailing) ++ [')'] ++ trim (orEmpty n.betweenTagAndName) ++
      printIdentifier n.name

/-- `nameAlign`: computed from the name *before* any argument fusion. -/
def nodeAlign (n : KNode) : Nat := getStringWidth (nodeBaseName n) + 1

/-- The fusion guard on the argument's leading trivia:
`!leading || !trim(leading)`. -/
def entryLeadingOk (e : KEntry) : Bool :=
  !truthyS e.leading || decide (trim (orEmpty e.leading) = [])

/-- Does the node fuse its single leading positional argument onto the name?
True exactly when the first entry exists and is unnamed, no other entry is
unnamed (`getArgumentEntries().length === 1` with
`entries[0] === argEntries[0]`), and its leading trivia is absent or trims
to nothing. -/
def nodeFuses (n : KNode) : Bool :=
  match n.entries with
  | [] => false
  | e :: rest => e.name.isNone && rest.all (fun x => x.name.isSome) && entryLeadingOk e

/-- The name string actually placed in the header group: the fused
`name ++ " " ++ printEntry(argument)` when fusion applies. -/
def nodeDisplayName (n : KNode) : List Char :=
  match n.entries with
  | e :: _ => if nodeFuses n then nodeBaseName n ++ ' ' :: printEntry e else nodeBaseName n
  | [] => nodeBaseName n

/-- The entries remaining in the breakable header after fusion. -/
def nodeRestEntries (n : KNode) : List KEntry :=
  if nodeFuses n then n.entries.tail else n.entries

/-- One iteration of the entries loop of `printNode`: reconcile the entry's
leading trivia into the header, then push the printed entry as an item. -/
def entryFoldStep (tokN : List Char → List NTok) (s : HState) (e : KEntry) : HState :=
  let s1 := if truthyS e.leading then (tokN (orEmpty e.leading)).foldl headerStep s else s
  pushItem s1 [Doc.text (printEntry e)]

/-- The header state after the entries loop and the `beforeChildren`
reconciliation. -/
def nodeHeaderState (tokN : List Char → List NTok) (n : KNode) : HState :=
  let s := (nodeRestEntries n).foldl (entryFoldStep tokN) { items := [], attached := false }
  if truthyS n.beforeChildren then (tokN (orEmpty n.beforeChildren)).foldl headerStep s else s

/-- The breakable header-item list of a node. -/
def nodeHeaderItems (tokN : List Char → List NTok) (n : KNode) : List (List Doc) :=
  (nodeHeaderState tokN n).items

/-- `node.hasChildren()`. -/
def nodeHasChildren (n : KNode) : Bool :=
  match n.children with
  | some c => c.hasNodes
  | none => false

/-- Truthiness of `node.children?.trailing`. -/
def nodeChildTrailing (n : KNode) : Bool :=
  match n.children with
  | some c => c.trailingTruthy
  | none => false

/-- The content of the header group:
`[name, continuation, ifBreak(align(nameAlign, [line, joined]), [line, joined])]`. -/
def groupInner (name : List Char) (a : Nat) (header : List (List Doc)) : Doc :=
  let joined := joinDoc Doc.line (header.map Doc.ofList)
  Doc.ofList [Doc.text name, continuationDoc,
    Doc.ifBreak (Doc.alignD a (Doc.ofList [Doc.line, joined]))
      (Doc.ofList [Doc.line, joined])]

/-- The main printed part of a node: the header group, plus the child block
when the node has children (or trailing trivia inside an otherwise empty
block). -/
def nodeMainPart (tokN : List Char → List NTok) (n : KNode) : Doc :=
  let hs := nodeHeaderState tokN n
  if !nodeHasChildren n && !nodeChildTrailing n then
    let header :=
      if n.children.isSome then (pushCont hs).items ++ [[Doc.text ['\x7b', '\x7d']]]
      else hs.items
    Doc.group (groupInner (nodeDisplayName n) (nodeAlign n) header)
  else
    let header := (pushCont hs).items ++ [[Doc.text ['\x7b']]]
    let childDoc := match n.children with | some c => c.printed | none => Doc.nil
    Doc.ofList [Doc.group (groupInner (nodeDisplayName n) (nodeAlign n) header),
      Doc.indentD (Doc.append Doc.hardline childDoc),
      Doc.hardline, Doc.text ['\x7d']]

/-- Strip one final `;` from a node's trailing trivia before reconciling it
(`if (trailing.endsWith(";")) trailing = trailing.slice(0, -1)`). -/
def stripSemicolon (t : List Char) : List Char :=
  if t.getLast? = some ';' then t.dropLast else t

/-- The trailing parts of a node. -/
def nodeTrailingParts (tokD : List Char → List DTok) (n : KNode) : List Doc :=
  if truthyS n.trailing then
    printLineSpaceD (tokD (stripSemicolon (orEmpty n.trailing))) false
  else []

/-- The leading parts of a node: reconciled with
`previousWasNewline: !isFirstNode`. -/
def nodeLeadingParts (tokD : List Char → List DTok) (isFirst : Bool) (n : KNode) :
    List Doc :=
  if truthyS n.leading then printLineSpaceD (tokD (orEmpty n.leading)) (!isFirst) else []

/-- `printNode` from src/printer.js, over the two abstract tokenizers. -/
def printNodeD (tokD : List Char → List DTok) (tokN : List Char → List NTok)
    (isFirst : Bool) (n : KNode) : Doc :=
  joinDoc Doc.hardline
    (nodeLeadingParts tokD isFirst n ++ [nodeMainPart tokN n] ++ nodeTrailingParts tokD n)

/-- `document.nodes.map((node, i) => printNode(node, i === 0))`. -/
def printNodesD (tokD : List Char → List DTok) (tokN : List Char → List NTok) :
    List KNode → List Doc
  | [] => []
  | n :: rest => printNodeD tokD tokN true n :: rest.map (printNodeD tokD tokN false)

/-- A document: nodes plus optional trailing trivia. -/
structure KDocT where
  nodes : List KNode
  trailing : Option (List Char)
deriving DecidableEq

/-- `printDocument` from src/printer.js. -/
def printDocumentD (tokD : List Char → List DTok) (tokN : List Char → List NTok)
    (d : KDocT) : Doc :=
  let trailParts :=
    if truthyS d.trailing then printLineSpaceD (tokD (orEmpty d.trailing)) false else []
  joinDoc Doc.hardline
    (joinDoc Doc.hardline (printNodesD tokD tokN d.nodes) :: trailParts)

/-- `printer.print`: the document doc followed by a final hardline. -/
def printPluginDoc (tokD : List Char → List DTok) (tokN : List Char → List NTok)
    (d : KDocT) : Doc :=
  Doc.append (printDocumentD tokD tokN d) Doc.hardline

/-- Rendering mode of one doc on the command stack. -/
inductive RMode where
  | flat : RMode
  | brk : RMode
deriving DecidableEq

/-- Structural size of a doc, the fuel measure of the renderer. -/
def Doc.size : Doc → Nat
  | .nil => 1
  | .text _ => 1
  | .append a b => 1 + a.size + b.size
  | .line => 1
  | .hardline => 1
  | .hardlineNBP => 1
  | .ifBreak a b => 1 + a.size + b.size
  | .breakParent => 1
  | .group d => 1 + d.size
  | .indentD d => 1 + d.size
  | .alignD _ d => 1 + d.size

/-- A render command: indentation, mode, doc. -/
abbrev RCmd := Nat × RMode × Doc

/-- Total size of a command list. -/
def cmdsSize (l : List RCmd) : Nat := (l.map (fun c => c.2.2.size)).sum

/-- Flat width of a doc.  Modelled from the spec: the width a group takes
when rendered flat; hard newlines make the content unfit for a single
line. -/
def flatW : Doc → Nat
  | .nil => 0
  | .text s => getStringWidth s
  | .append a b => flatW a + flatW b
  | .line => 1
  | .hardline => 1000000
  | .hardlineNBP => 1000000
  | .ifBreak _ b => flatW b
  | .breakParent => 0
  | .group d => flatW d
  | .indentD d => flatW d
  | .alignD _ d => flatW d

/-- Characters trimmed from the end of a finished output line. -/
def isTrimmable (c : Char) : Bool := c = ' ' || c = '\t'

/-- Renderer state: current column and the output so far, reversed. -/
structure RState where
  col : Nat
  out : List Char
deriving DecidableEq

/-- Emit a newline into the reversed output: trim trailing spaces/tabs from
the finished line, newline, then the indentation. -/
def emitNl (ind : Nat) (acc : List Char) : List Char :=
  List.replicate ind ' ' ++ '\n' :: acc.dropWhile isTrimmable

/-- One small step of the renderer.  Modelled from the spec: the layout
collaborator's semantics of §6 — a group renders flat iff it fits the
remaining width budget and contains no forced break; `line` is a space when
flat and a newline at the current indentation when broken; `hardline` and
`hardlineWithoutBreakParent` always emit a newline; `ifBreak` picks by mode;
`indent` shifts by one level (two columns), `align(n)` by `n` columns. -/
def stepFn (w : Nat) : RCmd → RState → List RCmd × RState
  | (i, m, d), st =>
    match d with
    | .nil => ([], st)
    | .text s => ([], ⟨st.col + getStringWidth s, s.reverse ++ st.out⟩)
    | .append a b => ([(i, m, a), (i, m, b)], st)
    | .line =>
      match m with
      | .flat => ([], ⟨st.col + 1, ' ' :: st.out⟩)
      | .brk => ([], ⟨i, emitNl i st.out⟩)
    | .hardline => ([], ⟨i, emitNl i st.out⟩)
    | .hardlineNBP => ([], ⟨i, emitNl i st.out⟩)
    | .ifBreak a b => ([(i, m, match m with | .brk => a | .flat => b)], st)
    | .breakParent => ([], st)
    | .group g =>
      ([(i, if forcesBreak g || decide (w < st.col + flatW g) then RMode.brk else RMode.flat,
          g)], st)
    | .indentD g => ([(i + 2, m, g)], st)
    | .alignD a g => ([(i + a, m, g)], st)

/-- The renderer's command machine, with fuel. -/
def execSteps (w : Nat) : Nat → List RCmd → RState → RState
  | 0, _, st => st
  | _ + 1, [], st => st
  | fuel + 1, c :: rest, st =>
    let p := stepFn w c st
    execSteps w fuel (p.1 ++ rest) p.2

/-- The renderer: every step strictly decreases the total command size, so
`cmdsSize` fuel always suffices. -/
def exec (w : Nat) (cmds : List RCmd) (st : RState) : RState :=
  execSteps w (cmdsSize cmds) cmds st

/-- `render(document)`: run the printed doc at width `w`, starting broken at
column 0, and read the output. -/
def renderPlugin (tokD : List Char → List DTok) (tokN : List Char → List NTok)
    (w : Nat) (d : KDocT) : List Char :=
  (exec w [(0, RMode.brk, printPluginDoc tokD tokN d)] ⟨0, []⟩).out.reverse

/-- The header-item lists produced by a run of leading-trivia-free entries:
every item but the last ends with the continuation. -/
def headerOf : List (List Char) → List (List Doc)
  | [] => []
  | [p] => [[Doc.text p]]
  | p :: q :: rest => [Doc.text p, continuationDoc] :: headerOf (q :: rest)

/-- The item docs of such a header. -/
def itemsDocs (ps : List (List Char)) : List Doc := (headerOf ps).map Doc.ofList

/-- The broken-mode header tail: each item on its own line at the alignment
column, every line before a following item ending in a continuation
backslash. -/
def brokenTail (a : Nat) : List (List Char) → List Char
  | [] => []
  | [p] => p
  | p :: q :: rest =>
    p ++ [' ', '\\', '\n'] ++ List.replicate a ' ' ++ brokenTail a (q :: rest)

/-- The column after rendering the broken header tail. -/
def brokenCol (a startCol : Nat) : List (List Char) → Nat
  | [] => startCol
  | [p] => startCol + getStringWidth p
  | _ :: q :: rest => brokenCol a a (q :: rest)

/-- Does the string end in a character that line-end trimming keeps? -/
def endsSolid (l : List Char) : Bool :=
  match l.getLast? with
  | some c => !isTrimmable c
  | none => false

/-- A concrete single unnamed argument entry, `"value"`. -/
def sampleFusedEntry : KEntry :=
  { name := none, equals := none, tag := none, betweenTagAndValue := none,
    value := .str ['v', 'a', 'l', 'u', 'e'], leading := none }

/-- A concrete node `node "value"` with one unnamed argument. -/
def sampleFusedNode : KNode :=
  { name := ['n', 'o', 'd', 'e'], tag := none, betweenTagAndName := none,
    entries := [sampleFusedEntry], children := none, leading := none,
    beforeChildren := none, trailing := none }

/-- A concrete property entry `a=#true`. -/
def samplePropEntryA : KEntry :=
  { name := some ['a'], equals := none, tag := none, betweenTagAndValue := none,
    value := .bool true, leading := none }

/-- A concrete property entry `b=#false`. -/
def samplePropEntryB : KEntry :=
  { name := some ['b'], equals := none, tag := none, betweenTagAndValue := none,
    value := .bool false, leading := none }

/-- A concrete node `node a=#true b=#false` with two property entries. -/
def sampleBrokenNode : KNode :=
  { name := ['n', 'o', 'd', 'e'], tag := none, betweenTagAndName := none,
    entries := [samplePropEntryA, samplePropEntryB], children := none,
    leading := none, beforeChildren := none, trailing := none }

theorem leadsWith_length {p s : List Char} (h : leadsWith p s = true) :
    p.length ≤ s.length := by
  induction p generalizing s with
  | nil => exact Nat.zero_le _
  | cons a ps ih =>
    cases s with
    | nil => simp [leadsWith] at h
    | cons c cs =>
      simp only [leadsWith, Bool.and_eq_true] at h
      simpa using Nat.succ_le_succ (ih h.2)

theorem containsSub_length {s p : List Char} (h : containsSub s p = true) :
    p.length ≤ s.length := by
  induction s with
  | nil =>
    rw [containsSub] at h
    simp only [Bool.or_eq_true] at h
    rcases h with h | h
    · exact leadsWith_length h
    · simp at h
  | cons c cs ih =>
    rw [containsSub] at h
    simp only [Bool.or_eq_true] at h
    rcases h with h | h
    · exact leadsWith_length h
    · exact Nat.le_succ_of_le (ih h)

theorem hasQH_length {s : List Char} {k : Nat} (h : hasQH s k = true) :
    k + 1 ≤ s.length := by
  have := containsSub_length h
  simpa [quoteHashes] using this

theorem minHashesAux_ge (s : List Char) :
    ∀ fuel k, k ≤ minHashesAux s k fuel := by
  intro fuel
  induction fuel with
  | zero => intro k; simp [minHashesAux]
  | succ fuel ih =>
    intro k
    rw [minHashesAux]
    by_cases h : hasQH s k = true
    · simp only [h, if_true]
      exact Nat.le_trans (Nat.le_succ k) (ih (k + 1))
    · simp only [Bool.not_eq_true] at h
      simp [h]

theorem minHashesAux_not (s : List Char) :
    ∀ fuel k, s.length + 1 ≤ k + fuel → hasQH s (minHashesAux s k fuel) = false := by
  intro fuel
  induction fuel with
  | zero =>
    intro k hk
    rw [minHashesAux]
    by_cases h : hasQH s k = true
    · exact absurd (hasQH_length h) (by omega)
    · simpa using h
  | succ fuel ih =>
    intro k hk
    rw [minHashesAux]
    by_cases h : hasQH s k = true
    · simp only [h, if_true]
      exact ih (k + 1) (by omega)
    · simp only [Bool.not_eq_true] at h
      simp [h]

theorem minHashesAux_below (s : List Char) :
    ∀ fuel k j, k ≤ j → j < minHashesAux s k fuel → hasQH s j = true := by
  intro fuel
  induction fuel with
  | zero =>
    intro k j hkj hlt
    rw [minHashesAux] at hlt
    omega
  | succ fuel ih =>
    intro k j hkj hlt
    rw [minHashesAux] at hlt
    by_cases h : hasQH s k = true
    · simp only [h, if_true] at hlt
      rcases Nat.eq_or_lt_of_le hkj with rfl | hkj'
      · exact h
      · exact ih (k + 1) j hkj' hlt
    · simp only [Bool.not_eq_true] at h
      rw [h] at hlt
      simp at hlt
      omega

/-- The chosen hash count never triggers the `includes` probe. -/
theorem minHashes_not (s : List Char) : hasQH s (minHashes s) = false :=
  minHashesAux_not s (s.length + 1) 0 (by omega)

/-- Every smaller hash count triggers the `includes` probe. -/
theorem minHashes_least (s : List Char) :
    ∀ j, j < minHashes s → hasQH s j = true := fun j hj =>
  minHashesAux_below s (s.length + 1) 0 j (Nat.zero_le j) hj

/-- C2: for every string value the printer picks the smallest `k ≥ 0` such
that the content contains no quote followed by `k` hashes; with `k = 0` it
emits the JSON-quoted form, otherwise the raw form with exactly `k` hashes
on each delimiter; the content `a"#b` gets exactly 2 hashes. -/
theorem printValue_string_minimal_hashes (s : List Char) :
    hasQH s (minHashes s) = false ∧
    (∀ j, j < minHashes s → hasQH s j = true) ∧
    printValue (.str s) =
      (if minHashes s = 0 then jsonStringify s else rawStringForm (minHashes s) s) ∧
    minHashes ['a', '"', '#', 'b'] = 2 ∧
    printValue (.str ['a', '"', '#', 'b']) =
      ['#', '#', '"', 'a', '"', '#', 'b', '"', '#', '#'] := by
  refine ⟨minHashes_not s, minHashes_least s, rfl, by decide, by decide⟩

/-- Witness for C2 at the concrete content `a"#b`: the chosen count 2 has no
occurrence, and the smaller counts 0 and 1 both occur. -/
theorem printValue_string_minimal_hashes_witness :
    hasQH ['a', '"', '#', 'b'] 2 = false ∧
    hasQH ['a', '"', '#', 'b'] 0 = true ∧ hasQH ['a', '"', '#', 'b'] 1 = true := by
  have h := printValue_string_minimal_hashes ['a', '"', '#', 'b']
  refine ⟨?_, ?_, ?_⟩
  · have := h.1
    rwa [h.2.2.2.1] at this
  · exact h.2.1 0 (by rw [h.2.2.2.1]; omega)
  · exact h.2.1 1 (by rw [h.2.2.2.1]; omega)

/-- C7: `printValue` sends NaN to `#nan`, the infinities to `#inf`/`#-inf`,
and every finite (modelled integral) number to the decimal numeral of the
stored value; the model's `KValue.num` carries only the numeric value (no
source spelling), so the `2e3` entry, stored as 2000, renders as `2000`. -/
theorem printValue_numbers (n : Int) :
    printValue (.num .nan) = ['#', 'n', 'a', 'n'] ∧
    printValue (.num .posInf) = ['#', 'i', 'n', 'f'] ∧
    printValue (.num .negInf) = ['#', '-', 'i', 'n', 'f'] ∧
    printValue (.num (.int n)) = intDecimal n ∧
    printValue (.num (.int 2000)) = ['2', '0', '0', '0'] :=
  ⟨rfl, rfl, rfl, rfl, by decide⟩

theorem printIdentifier_length_of_not_bare {s : List Char}
    (h : bareIdentOk s = false) :
    (printIdentifier s).length = s.length + 2 + 2 * minHashes s := by
  rw [printIdentifier, h]
  by_cases hk : minHashes s = 0
  · simp [hk]
  · simp only [Bool.false_eq_true, if_false, hk, rawStringForm]
    simp
    omega

/-- Counterexample to C8 as stated: the name `a\b` is not bare-eligible, and
`printIdentifier` does not apply the same rule as string values — the string
rule escapes the backslash via `JSON.stringify`, the identifier rule does
not. -/
theorem printIdentifier_not_string_rule :
    bareIdentOk ['a', '\\', 'b'] = false ∧
    printIdentifier ['a', '\\', 'b'] = ['"', 'a', '\\', 'b', '"'] ∧
    printValue (.str ['a', '\\', 'b']) = ['"', 'a', '\\', '\\', 'b', '"'] ∧
    printIdentifier ['a', '\\', 'b'] ≠ printValue (.str ['a', '\\', 'b']) := by
  refine ⟨by decide, by decide, by decide, by decide⟩

/-- C8 (amended): `printIdentifier` emits the name bare iff it is non-empty,
not reserved and matches the plain-identifier grammar; otherwise it selects
the same minimal hash count `k` as the string rule and emits `k`-hash
delimiters, agreeing with the string-value output exactly when `k ≥ 1`,
while for `k = 0` the name is placed between plain quotes verbatim, without
the `JSON.stringify` escaping that string values receive. -/
theorem printIdentifier_spec (s : List Char) :
    (bareIdentOk s = true ↔
      (s ≠ [] ∧ ¬ s ∈ reservedIdentifiers ∧ plainIdentifier s = true)) ∧
    (printIdentifier s = s ↔ bareIdentOk s = true) ∧
    (bareIdentOk s = false →
      (minHashes s = 0 → printIdentifier s = '"' :: s ++ ['"']) ∧
      (0 < minHashes s → printIdentifier s = printValue (.str s))) := by
  refine ⟨?_, ?_, ?_⟩
  · constructor
    · intro h
      simp only [bareIdentOk, Bool.and_eq_true, Bool.not_eq_true',
        decide_eq_true_eq] at h
      refine ⟨?_, ?_, h.2⟩
      · intro hnil; rw [hnil] at h; simp at h
      · intro hmem
        have := h.1.2
        rw [List.contains, List.elem_eq_true_of_mem hmem] at this
        simp at this
    · rintro ⟨h1, h2, h3⟩
      simp only [bareIdentOk, Bool.and_eq_true, Bool.not_eq_true',
        decide_eq_true_eq]
      refine ⟨⟨?_, ?_⟩, h3⟩
      · cases s with
        | nil => exact absurd rfl h1
        | cons c cs => simp
      · rw [List.contains]
        by_cases he : List.elem s reservedIdentifiers = true
        · exact absurd (List.mem_of_elem_eq_true he) h2
        · simpa using he
  · constructor
    · intro h
      by_cases hb : bareIdentOk s = true
      · exact hb
      · exfalso
        have hb' : bareIdentOk s = false := by
          simpa using hb
        have hlen := printIdentifier_length_of_not_bare hb'
        rw [h] at hlen
        omega
    · intro h
      rw [printIdentifier, h]
      simp
  · intro h
    constructor
    · intro hk
      rw [printIdentifier, h]
      simp [hk]
    · intro hk
      rw [printIdentifier, h, printValue]
      have hk' : ¬ (minHashes s = 0) := by omega
      simp [hk']

/-- Witness for C8: the tag name `ta"g` (from the repository's own test) is
not bare-eligible and needs one hash, where identifier and string output
coincide: both are `#"ta"g"#`. -/
theorem printIdentifier_spec_witness :
    printIdentifier ['t', 'a', '"', 'g'] = printValue (.str ['t', 'a', '"', 'g']) :=
  ((printIdentifier_spec ['t', 'a', '"', 'g']).2.2 (by decide)).2 (by decide)

theorem dropWhile_ne_nil {p : Char → Bool} {l : List Char}
    (h : ∃ x ∈ l, p x = false) : l.dropWhile p ≠ [] := by
  induction l with
  | nil => simp at h
  | cons c cs ih =>
    rw [List.dropWhile]
    cases hc : p c
    · simp
    · rcases h with ⟨x, hx, hpx⟩
      rcases List.mem_cons.1 hx with rfl | hx'
      · rw [hc] at hpx; cases hpx
      · exact ih ⟨x, hx', hpx⟩

theorem trim_cons_ne_nil {c : Char} (l : List Char) (hc : isInlineSpace c = false) :
    trim (c :: l) ≠ [] := by
  rw [trim, trimStart, List.dropWhile]
  rw [hc]
  intro h
  rw [trimEnd] at h
  have : (c :: l).reverse.dropWhile isInlineSpace = [] := by
    have := congrArg List.reverse h
    simpa using this
  exact dropWhile_ne_nil ⟨c, by simp, hc⟩ this

theorem consHead_ne_nil (c : Char) (ls : List (List Char)) : consHead c ls ≠ [] := by
  cases ls <;> simp [consHead]

theorem splitLines_ne_nil (t : List Char) : splitLines t ≠ [] := by
  cases t with
  | nil => simp [splitLines]
  | cons c rest =>
    rw [splitLines.eq_def]
    by_cases h1 : c.toNat = 0x0D
    · simp only [h1, if_true]
      cases rest with
      | nil => simp
      | cons c2 rest2 => by_cases h2 : c2.toNat = 0x0A <;> simp [h2]
    · simp only [h1, if_false]
      by_cases h2 : isLineTerminator c = true
      · simp [h2]
      · simp only [Bool.not_eq_true] at h2
        simp only [h2, Bool.false_eq_true, if_false]
        exact consHead_ne_nil _ _

theorem joinDoc_cons_ne_text (sep d : Doc) (ds : List Doc) (s : List Char) :
    joinDoc sep (d :: ds) ≠ Doc.text s := by
  cases ds <;> simp [joinDoc, List.intersperse, Doc.ofList]

theorem formatBlockComment_ne_text (sep : Doc) (tf : List Char → List Char)
    (t s : List Char) : formatBlockComment sep tf t ≠ Doc.text s := by
  rw [formatBlockComment]
  rcases hl : splitLines t with _ | ⟨l0, rest⟩
  · exact absurd hl (splitLines_ne_nil t)
  · by_cases hc : ((l0 :: rest).length = 1 || !contLinesStarred (l0 :: rest)) = true
    · simp only [hc, if_true, List.map_cons]
      exact joinDoc_cons_ne_text _ _ _ _
    · simp only [Bool.not_eq_true] at hc
      simp only [hc, Bool.false_eq_true, if_false]
      exact joinDoc_cons_ne_text _ _ _ _

theorem ofList_cons_ne_text (d : Doc) (ds : List Doc) (s : List Char) :
    Doc.ofList (d :: ds) ≠ Doc.text s := by
  simp [Doc.ofList]

theorem forcesBreak_ofList (ds : List Doc) :
    forcesBreak (Doc.ofList ds) = ds.any forcesBreak := by
  induction ds with
  | nil => simp [Doc.ofList, forcesBreak]
  | cons d tl ih => simp [Doc.ofList, forcesBreak, ih]

theorem forcesBreak_joinDoc_false {sep : Doc} (hsep : forcesBreak sep = false) :
    ∀ ds : List Doc, (∀ d ∈ ds, forcesBreak d = false) →
    forcesBreak (joinDoc sep ds) = false := by
  intro ds
  induction ds with
  | nil => intro _; simp [joinDoc, List.intersperse, Doc.ofList, forcesBreak]
  | cons d tl ih =>
    intro h
    cases tl with
    | nil =>
      simp [joinDoc, List.intersperse, Doc.ofList, forcesBreak, h d (by simp)]
    | cons d2 tl2 =>
      have h1 : forcesBreak (joinDoc sep (d2 :: tl2)) = false :=
        ih fun x hx => h x (List.mem_cons_of_mem d hx)
      simp only [joinDoc, List.intersperse] at h1 ⊢
      simp only [Doc.ofList, forcesBreak, Bool.or_eq_false_iff]
      refine ⟨h d (by simp), hsep, ?_⟩
      simpa [Doc.ofList, forcesBreak] using h1

theorem forcesBreak_formatBlockComment (tf : List Char → List Char) (t : List Char) :
    forcesBreak (formatBlockComment Doc.hardlineNBP tf t) = false := by
  rw [formatBlockComment]
  by_cases hc : ((splitLines t).length = 1 || !contLinesStarred (splitLines t)) = true
  · simp only [hc, if_true]
    refine forcesBreak_joinDoc_false (show forcesBreak Doc.hardlineNBP = false from rfl) _ ?_
    intro d hd
    rcases List.mem_map.1 hd with ⟨l, _, rfl⟩
    rfl
  · simp only [Bool.not_eq_true] at hc
    simp only [hc, Bool.false_eq_true, if_false]
    refine forcesBreak_joinDoc_false (show forcesBreak Doc.hardlineNBP = false from rfl) _ ?_
    intro d hd
    rcases List.mem_cons.1 hd with rfl | hd'
    · rfl
    · rcases List.mem_map.1 hd' with ⟨l, _, rfl⟩
      rfl

/-- C6 counterexample: a slashdash entry emitted into the header, and a
single-line block comment emitted into the header, are items that do not
force the enclosing group to break (the repository's own test renders a
node with a slashdash-disabled argument flat on one line). -/
theorem headerItem_not_forcing :
    (headerStep { items := [], attached := false }
        (.slashdashEntry (Doc.text ['x']))).items
      = [[Doc.text ['/', '-'], Doc.text ['x']]] ∧
    forcesBreak (Doc.ofList [Doc.text ['/', '-'], Doc.text ['x']]) = false ∧
    (headerStep { items := [], attached := false }
        (.multiline ['/', '*', ' ', 'c', ' ', '*', '/'])).items
      = [[formatBlockComment Doc.hardlineNBP trim ['/', '*', ' ', 'c', ' ', '*', '/']]] ∧
    forcesBreak (formatBlockComment Doc.hardlineNBP trim
        ['/', '*', ' ', 'c', ' ', '*', '/']) = false := by
  refine ⟨by decide, by decide, by decide, by decide⟩

/-- C6 (amended): among the items emitted by header-level trivia
reconciliation, exactly the single-line comment items (under a line
continuation) carry a `breakParent` and force the enclosing header group to
break; a block-comment item is joined with `hardlineWithoutBreakParent` and
never forces a break, and a slashdash item forces a break only if its
recursively printed payload does. -/
theorem headerItem_break_spec (s : HState) (outer t : List Char) (d : Doc) :
    ((headerStep s (.lineEscape outer [DTok.singleline t])).items.getLast? =
      some [Doc.breakParent, Doc.text ('\\' :: ' ' :: trim t.dropLast)]) ∧
    forcesBreak (Doc.ofList
      [Doc.breakParent, Doc.text ('\\' :: ' ' :: trim t.dropLast)]) = true ∧
    ((headerStep s (.slashdashEntry d)).items.getLast? =
      some [Doc.text ['/', '-'], d]) ∧
    forcesBreak (Doc.ofList [Doc.text ['/', '-'], d]) = forcesBreak d ∧
    ((headerStep s (.multiline t)).items.getLast? =
      some [formatBlockComment Doc.hardlineNBP trim t]) ∧
    forcesBreak (formatBlockComment Doc.hardlineNBP trim t) = false := by
  refine ⟨?_, rfl, ?_, ?_, ?_, forcesBreak_formatBlockComment trim t⟩
  · show ((List.foldl (lineEscapeStep outer) s [DTok.singleline t]).items.getLast? = _)
    rw [List.foldl_cons, List.foldl_nil, lineEscapeStep]
    exact List.getLast?_concat _
  · exact List.getLast?_concat _
  · simp [Doc.ofList, forcesBreak]
  · exact List.getLast?_concat _

/-- C3 counterexample: a blank line is emitted after a single-line comment
followed by only one `newline` token (the comment's own text supplies the
first line terminator), so the as-stated condition "two or more newline
tokens occur consecutively" is not necessary; moreover a blank line can be
the last emitted part of a trivia region (blank source lines after the last
content are not suppressed). -/
theorem printLineSpace_blank_counterexample :
    hasConsecNewlines
      [DTok.singleline ['/', '/', 'c', '\n'], DTok.newline] = false ∧
    printLineSpaceD [DTok.singleline ['/', '/', 'c', '\n'], DTok.newline] false
      = [Doc.text ['/', '/', 'c'], Doc.text []] ∧
    (printLineSpaceD
        [DTok.singleline ['/', '/', 'c', '\n'], DTok.newline, DTok.newline] false).getLast?
      = some (Doc.text []) := by
  refine ⟨by decide, by decide, by decide⟩

theorem lineSpaceStep_newline_stable {s : LSState} (h1 : s.hasEmpty = true)
    (h2 : s.lastNl = true) : lineSpaceStep s DTok.newline = s := by
  rw [lineSpaceStep]
  rw [h1]
  simp only [Bool.not_true, Bool.and_false, Bool.false_eq_true, if_false]
  cases s
  simp_all

theorem foldl_newline_stable (m : Nat) :
    ∀ s : LSState, s.hasEmpty = true → s.lastNl = true →
    List.foldl lineSpaceStep s (List.replicate m DTok.newline) = s := by
  induction m with
  | zero => intro s _ _; simp
  | succ m ih =>
    intro s h1 h2
    rw [List.replicate_succ, List.foldl_cons, lineSpaceStep_newline_stable h1 h2]
    exact ih s h1 h2

/-- The fold invariant of document-level trivia reconciliation, unseeded:
content has been emitted exactly when some part has been emitted, and the
first emitted part is never the blank-line marker. -/
def LSInv (s : LSState) : Prop :=
  (s.hasContent = true ↔ s.parts ≠ []) ∧ s.parts.head? ≠ some (Doc.text [])

theorem head?_append_part {l : List Doc} (d : Doc)
    (h : l.head? ≠ some (Doc.text [])) (hd : d ≠ Doc.text []) :
    (l ++ [d]).head? ≠ some (Doc.text []) := by
  cases l with
  | nil => simpa using hd
  | cons x xs => simpa using h

theorem ls_step_inv {s : LSState} {t : DTok} (hw : DTokWf t = true)
    (h : LSInv s) : LSInv (lineSpaceStep s t) := by
  obtain ⟨hc, hh⟩ := h
  cases t with
  | newline =>
    rw [lineSpaceStep]
    by_cases hcond : (s.lastNl && s.hasContent && !s.hasEmpty) = true
    · rw [hcond, if_pos rfl]
      have hcontent : s.hasContent = true := by
        simp only [Bool.and_eq_true] at hcond
        exact hcond.1.2
      have hne : s.parts ≠ [] := hc.1 hcontent
      constructor
      · simp [hcontent, hne]
      · cases hp : s.parts with
        | nil => exact absurd hp hne
        | cons x xs =>
          simp only [hp]
          simpa [hp] using hh
    · simp only [Bool.not_eq_true] at hcond
      rw [hcond]
      simpa using ⟨hc, hh⟩
  | space => exact ⟨hc, hh⟩
  | singleline t =>
    have htr : trim t.dropLast ≠ [] := by
      rw [DTokWf] at hw
      rcases t with _ | ⟨a, _ | ⟨b, r⟩⟩
      · cases hw
      · simp [leadsWith] at hw
      · simp only [leadsWith, Bool.and_eq_true, decide_eq_true_eq] at hw
        obtain ⟨rfl, rfl, -⟩ := hw
        rw [List.dropLast_cons₂]
        exact trim_cons_ne_nil _ (by decide)
    refine ⟨by simp [lineSpaceStep], ?_⟩
    simp only [lineSpaceStep]
    exact head?_append_part _ hh (by simpa using htr)
  | multiline t =>
    refine ⟨by simp [lineSpaceStep], ?_⟩
    simp only [lineSpaceStep]
    exact head?_append_part _ hh (formatBlockComment_ne_text _ _ _ _)
  | slashdash d =>
    refine ⟨by simp [lineSpaceStep], ?_⟩
    simp only [lineSpaceStep]
    exact head?_append_part _ hh (ofList_cons_ne_text _ _ _)

theorem ls_fold_inv (toks : List DTok) :
    ∀ s : LSState, (∀ t ∈ toks, DTokWf t = true) → LSInv s →
    LSInv (List.foldl lineSpaceStep s toks) := by
  induction toks with
  | nil => intro s _ h; exact h
  | cons t tl ih =>
    intro s hw h
    rw [List.foldl_cons]
    exact ih _ (fun x hx => hw x (List.mem_cons_of_mem t hx))
      (ls_step_inv (hw t (by simp)) h)

/-- C3 (amended): in `printLineSpace` a blank output part is emitted at a
step exactly when a `newline` token arrives while the last-was-newline flag
is set (by a preceding newline token, a single-line comment — whose text
carries its own line terminator — or region seeding), content has already
been emitted, and no blank has been emitted since the last content; a run of
`n ≥ 1` newline tokens between two single-line comments collapses to exactly
one blank part; and an unseeded region never begins with a blank part.
Blank parts may end a region (trailing blank source lines, see the
counterexample). -/
theorem printLineSpace_blank_spec :
    (∀ (s : LSState) (t : DTok), DTokWf t = true →
      ((lineSpaceStep s t).parts = s.parts ++ [Doc.text []] ↔
        (t = DTok.newline ∧ s.lastNl = true ∧ s.hasContent = true ∧
          s.hasEmpty = false))) ∧
    (∀ (c1 c2 : List Char) (n : Nat), 1 ≤ n →
      printLineSpaceD
          (DTok.singleline c1 :: (List.replicate n DTok.newline ++ [DTok.singleline c2]))
          false
        = [Doc.text (trim c1.dropLast), Doc.text [], Doc.text (trim c2.dropLast)]) ∧
    (∀ toks : List DTok, (∀ t ∈ toks, DTokWf t = true) →
      (printLineSpaceD toks false).head? ≠ some (Doc.text [])) := by
  refine ⟨?_, ?_, ?_⟩
  · intro s t hw
    cases t with
    | newline =>
      rw [lineSpaceStep]
      by_cases hcond : (s.lastNl && s.hasContent && !s.hasEmpty) = true
      · rw [hcond, if_pos rfl]
        simp only [Bool.and_eq_true, Bool.not_eq_true'] at hcond
        simp [hcond.1.1, hcond.1.2, hcond.2]
      · simp only [Bool.not_eq_true] at hcond
        rw [hcond]
        simp only [Bool.false_eq_true, if_false]
        constructor
        · intro habs
          exfalso
          have := congrArg List.length habs
          simp at this
        · rintro ⟨-, h1, h2, h3⟩
          rw [h1, h2, h3] at hcond
          simp at hcond
    | space =>
      constructor
      · intro habs
        exfalso
        have := congrArg List.length habs
        simp [lineSpaceStep] at this
      · rintro ⟨habs, -⟩
        cases habs
    | singleline t =>
      have htr : trim t.dropLast ≠ [] := by
        rw [DTokWf] at hw
        rcases t with _ | ⟨a, _ | ⟨b, r⟩⟩
        · cases hw
        · simp [leadsWith] at hw
        · simp only [leadsWith, Bool.and_eq_true, decide_eq_true_eq] at hw
          obtain ⟨rfl, rfl, -⟩ := hw
          rw [List.dropLast_cons₂]
          exact trim_cons_ne_nil _ (by decide)
      constructor
      · intro habs
        exfalso
        simp only [lineSpaceStep] at habs
        have := List.append_inj_right habs rfl
        simp only [List.cons.injEq] at this
        exact htr (Doc.text.inj this.1)
      · rintro ⟨habs, -⟩
        cases habs
    | multiline t =>
      constructor
      · intro habs
        exfalso
        simp only [lineSpaceStep] at habs
        have := List.append_inj_right habs rfl
        simp only [List.cons.injEq] at this
        exact formatBlockComment_ne_text _ _ _ _ this.1
      · rintro ⟨habs, -⟩
        cases habs
    | slashdash d =>
      constructor
      · intro habs
        exfalso
        simp only [lineSpaceStep] at habs
        have := List.append_inj_right habs rfl
        simp only [List.cons.injEq] at this
        exact ofList_cons_ne_text _ _ _ this.1
      · rintro ⟨habs, -⟩
        cases habs
  · intro c1 c2 n hn
    obtain ⟨m, rfl⟩ : ∃ m, n = m + 1 := ⟨n - 1, by omega⟩
    rw [printLineSpaceD, List.replicate_succ, List.cons_append, List.foldl_cons]
    have h1 : lineSpaceStep
        { parts := [], hasEmpty := false, hasContent := false, lastNl := false }
        (DTok.singleline c1)
        = { parts := [Doc.text (trim c1.dropLast)], hasEmpty := false,
            hasContent := true, lastNl := true } := by
      rw [lineSpaceStep]
      simp
    rw [h1, List.foldl_cons]
    have h2 : lineSpaceStep
        { parts := [Doc.text (trim c1.dropLast)], hasEmpty := false,
          hasContent := true, lastNl := true } DTok.newline
        = { parts := [Doc.text (trim c1.dropLast), Doc.text []], hasEmpty := true,
            hasContent := true, lastNl := true } := by
      rw [lineSpaceStep]
      simp
    rw [h2, List.foldl_append, foldl_newline_stable m _ rfl rfl, List.foldl_cons,
      List.foldl_nil]
    rw [lineSpaceStep]
    simp
  · intro toks hw
    have := ls_fold_inv toks
      { parts := [], hasEmpty := false, hasContent := false, lastNl := false }
      hw (by constructor <;> simp)
    exact this.2

/-- Witness for C3 (amended), at one blank source line between two
comments: exactly one blank part is emitted between the two comment
parts. -/
theorem printLineSpace_blank_spec_witness :
    printLineSpaceD
        (DTok.singleline ['/', '/', 'a', '\n'] ::
          (List.replicate 1 DTok.newline ++ [DTok.singleline ['/', '/', 'b', '\n']]))
        false
      = [Doc.text ['/', '/', 'a'], Doc.text [], Doc.text ['/', '/', 'b']] := by
  have := printLineSpace_blank_spec.2.1 ['/', '/', 'a', '\n'] ['/', '/', 'b', '\n'] 1
    (by omega)
  rw [this]
  decide

/-- C9: a block comment is split on line terminators; with exactly one line,
or a continuation line that does not start (after trimming) with `*`, every
line is emitted verbatim joined by forced line breaks, otherwise the first
line is left-trimmed and each continuation line becomes exactly one space
followed by its left-trimmed content.  The repository's test comment is
rendered in the re-aligned form. -/
theorem blockComment_format (text : List Char) :
    ((splitLines text).length = 1 ∨ contLinesStarred (splitLines text) = false →
      formatBlockComment Doc.hardline trimStart text
        = joinDoc Doc.hardline ((splitLines text).map Doc.text)) ∧
    ((splitLines text).length ≠ 1 → contLinesStarred (splitLines text) = true →
      formatBlockComment Doc.hardline trimStart text
        = joinDoc Doc.hardline
            (Doc.text (trimStart ((splitLines text).headD [])) ::
              ((splitLines text).drop 1).map (fun l => Doc.text (' ' :: trimStart l)))) ∧
    formatBlockComment Doc.hardline trimStart
        (('/' :: '*' :: '\n' :: "    * moar comments".toList) ++ ('\n' :: " */".toList))
      = joinDoc Doc.hardline
          [Doc.text ['/', '*'], Doc.text " * moar comments".toList,
            Doc.text " */".toList] := by
  refine ⟨?_, ?_, by decide⟩
  · intro h
    rw [formatBlockComment]
    have : ((splitLines text).length = 1 || !contLinesStarred (splitLines text)) = true := by
      rcases h with h | h <;> simp [h]
    rw [this, if_pos rfl]
  · intro h1 h2
    rw [formatBlockComment]
    have : ((splitLines text).length = 1 || !contLinesStarred (splitLines text)) = false := by
      simp [h1, h2]
    rw [this]
    simp

/-- Witness for C9: a one-line block comment is emitted verbatim. -/
theorem blockComment_format_witness :
    formatBlockComment Doc.hardline trimStart "/* x */".toList
      = joinDoc Doc.hardline ((splitLines "/* x */".toList).map Doc.text) :=
  (blockComment_format "/* x */".toList).1 (Or.inl (by decide))

theorem Doc.size_pos (d : Doc) : 0 < d.size := by
  cases d <;> simp [Doc.size]

theorem cmdsSize_nil : cmdsSize [] = 0 := rfl

theorem cmdsSize_cons (c : RCmd) (l : List RCmd) :
    cmdsSize (c :: l) = c.2.2.size + cmdsSize l := by
  simp [cmdsSize]

theorem cmdsSize_append (l1 l2 : List RCmd) :
    cmdsSize (l1 ++ l2) = cmdsSize l1 + cmdsSize l2 := by
  simp [cmdsSize]

theorem cmdsSize_eq_zero {l : List RCmd} (h : cmdsSize l = 0) : l = [] := by
  cases l with
  | nil => rfl
  | cons c rest =>
    rw [cmdsSize_cons] at h
    have := Doc.size_pos c.2.2
    omega

theorem stepFn_size (w : Nat) (c : RCmd) (st : RState) :
    cmdsSize (stepFn w c st).1 < c.2.2.size := by
  obtain ⟨i, m, d⟩ := c
  cases d with
  | nil => simp [stepFn, cmdsSize, Doc.size]
  | text s => simp [stepFn, cmdsSize, Doc.size]
  | append a b => simp [stepFn, cmdsSize_cons, cmdsSize_nil, Doc.size]
  | line => cases m <;> simp [stepFn, cmdsSize, Doc.size]
  | hardline => simp [stepFn, cmdsSize, Doc.size]
  | hardlineNBP => simp [stepFn, cmdsSize, Doc.size]
  | ifBreak a b =>
    have ha := Doc.size_pos a
    have hb := Doc.size_pos b
    cases m <;> simp [stepFn, cmdsSize_cons, cmdsSize_nil, Doc.size]
    omega
  | breakParent => simp [stepFn, cmdsSize, Doc.size]
  | group g => simp [stepFn, cmdsSize_cons, cmdsSize_nil, Doc.size]
  | indentD g => simp [stepFn, cmdsSize_cons, cmdsSize_nil, Doc.size]
  | alignD a g => simp [stepFn, cmdsSize_cons, cmdsSize_nil, Doc.size]

theorem execSteps_fuel (w : Nat) : ∀ fuel cmds st, cmdsSize cmds ≤ fuel →
    execSteps w fuel cmds st = execSteps w (cmdsSize cmds) cmds st := by
  intro fuel
  induction fuel using Nat.strong_induction_on with
  | _ fuel ih =>
    intro cmds st h
    cases fuel with
    | zero =>
      have : cmds = [] := cmdsSize_eq_zero (by omega)
      subst this
      rfl
    | succ f =>
      cases cmds with
      | nil => rfl
      | cons c rest =>
        have hstep := stepFn_size w c st
        have hpos := Doc.size_pos c.2.2
        have hN : cmdsSize (c :: rest) = (c.2.2.size - 1 + cmdsSize rest) + 1 := by
          rw [cmdsSize_cons]; omega
        rw [hN]
        show execSteps w f ((stepFn w c st).1 ++ rest) (stepFn w c st).2
          = execSteps w (c.2.2.size - 1 + cmdsSize rest)
              ((stepFn w c st).1 ++ rest) (stepFn w c st).2
        have hsize : cmdsSize ((stepFn w c st).1 ++ rest)
            ≤ c.2.2.size - 1 + cmdsSize rest := by
          rw [cmdsSize_append]; omega
        have hle : c.2.2.size - 1 + cmdsSize rest ≤ f := by
          rw [cmdsSize_cons] at h; omega
        rw [ih f (by omega) _ _ (le_trans hsize hle),
          ih (c.2.2.size - 1 + cmdsSize rest) (by omega) _ _ hsize]

theorem exec_nil_cmds (w : Nat) (st : RState) : exec w [] st = st := rfl

theorem exec_cons (w : Nat) (c : RCmd) (rest : List RCmd) (st : RState) :
    exec w (c :: rest) st
      = exec w ((stepFn w c st).1 ++ rest) (stepFn w c st).2 := by
  rw [exec]
  have hpos := Doc.size_pos c.2.2
  have hstep := stepFn_size w c st
  have hN : cmdsSize (c :: rest) = (c.2.2.size - 1 + cmdsSize rest) + 1 := by
    rw [cmdsSize_cons]; omega
  rw [hN]
  show execSteps w (c.2.2.size - 1 + cmdsSize rest)
      ((stepFn w c st).1 ++ rest) (stepFn w c st).2 = _
  rw [execSteps_fuel w _ _ _ (by rw [cmdsSize_append]; omega)]
  rfl

theorem exec_append_cmds (w : Nat) (c1 : List RCmd) :
    ∀ c2 st, exec w (c1 ++ c2) st = exec w c2 (exec w c1 st) := by
  suffices H : ∀ N c1, cmdsSize c1 ≤ N →
      ∀ c2 st, exec w (c1 ++ c2) st = exec w c2 (exec w c1 st) by
    exact H (cmdsSize c1) c1 le_rfl
  intro N
  induction N with
  | zero =>
    intro c1 hc1 c2 st
    have : c1 = [] := cmdsSize_eq_zero (by omega)
    subst this
    rfl
  | succ N ihN =>
    intro c1 hc1 c2 st
    cases c1 with
    | nil => rfl
    | cons c rest =>
      rw [List.cons_append, exec_cons, exec_cons, ← List.append_assoc]
      have hstep := stepFn_size w c st
      refine ihN _ ?_ c2 _
      rw [cmdsSize_append]
      rw [cmdsSize_cons] at hc1
      omega

theorem exec_nilC (w i m) (L : List RCmd) (st : RState) :
    exec w ((i, m, Doc.nil) :: L) st = exec w L st := by
  rw [exec_cons]; rfl

theorem exec_textC (w i m) (s : List Char) (L : List RCmd) (st : RState) :
    exec w ((i, m, Doc.text s) :: L) st
      = exec w L ⟨st.col + getStringWidth s, s.reverse ++ st.out⟩ := by
  rw [exec_cons]; rfl

theorem exec_appendC (w i m) (a b : Doc) (L : List RCmd) (st : RState) :
    exec w ((i, m, Doc.append a b) :: L) st
      = exec w ((i, m, a) :: (i, m, b) :: L) st := by
  rw [exec_cons]; rfl

theorem exec_lineFlat (w i) (L : List RCmd) (st : RState) :
    exec w ((i, RMode.flat, Doc.line) :: L) st
      = exec w L ⟨st.col + 1, ' ' :: st.out⟩ := by
  rw [exec_cons]; rfl

theorem exec_lineBrk (w i) (L : List RCmd) (st : RState) :
    exec w ((i, RMode.brk, Doc.line) :: L) st
      = exec w L ⟨i, emitNl i st.out⟩ := by
  rw [exec_cons]; rfl

theorem exec_hardlineC (w i m) (L : List RCmd) (st : RState) :
    exec w ((i, m, Doc.hardline) :: L) st = exec w L ⟨i, emitNl i st.out⟩ := by
  rw [exec_cons]
  cases m <;> rfl

theorem exec_hardlineNBPC (w i m) (L : List RCmd) (st : RState) :
    exec w ((i, m, Doc.hardlineNBP) :: L) st = exec w L ⟨i, emitNl i st.out⟩ := by
  rw [exec_cons]
  cases m <;> rfl

theorem exec_ifBreakBrk (w i) (a b : Doc) (L : List RCmd) (st : RState) :
    exec w ((i, RMode.brk, Doc.ifBreak a b) :: L) st
      = exec w ((i, RMode.brk, a) :: L) st := by
  rw [exec_cons]; rfl

theorem exec_ifBreakFlat (w i) (a b : Doc) (L : List RCmd) (st : RState) :
    exec w ((i, RMode.flat, Doc.ifBreak a b) :: L) st
      = exec w ((i, RMode.flat, b) :: L) st := by
  rw [exec_cons]; rfl

theorem exec_breakParentC (w i m) (L : List RCmd) (st : RState) :
    exec w ((i, m, Doc.breakParent) :: L) st = exec w L st := by
  rw [exec_cons]; rfl

theorem exec_groupC (w i m) (g : Doc) (L : List RCmd) (st : RState) :
    exec w ((i, m, Doc.group g) :: L) st
      = exec w ((i,
          if forcesBreak g || decide (w < st.col + flatW g) then RMode.brk
          else RMode.flat, g) :: L) st := by
  rw [exec_cons]; rfl

theorem exec_indentC (w i m) (g : Doc) (L : List RCmd) (st : RState) :
    exec w ((i, m, Doc.indentD g) :: L) st = exec w ((i + 2, m, g) :: L) st := by
  rw [exec_cons]; rfl

theorem exec_alignC (w i m) (a : Nat) (g : Doc) (L : List RCmd) (st : RState) :
    exec w ((i, m, Doc.alignD a g) :: L) st = exec w ((i + a, m, g) :: L) st := by
  rw [exec_cons]; rfl

theorem endsSolid_concat (l : List Char) (c : Char) :
    endsSolid (l ++ [c]) = !isTrimmable c := by
  simp [endsSolid, List.getLast?_concat]

theorem endsSolid_append_right (l r : List Char) (h : endsSolid r = true) :
    endsSolid (l ++ r) = true := by
  rcases List.eq_nil_or_concat r with rfl | ⟨r', c, rfl⟩
  · simp [endsSolid] at h
  · simp only [List.concat_eq_append] at h ⊢
    rw [← List.append_assoc, endsSolid_concat]
    rw [endsSolid_concat] at h
    exact h

theorem endsSolid_cons (c : Char) (l : List Char) (h : endsSolid l = true) :
    endsSolid (c :: l) = true := by
  have := endsSolid_append_right [c] l h
  simpa using this

theorem endsSolid_ne_nil {l : List Char} (h : endsSolid l = true) : l ≠ [] := by
  intro hnil
  rw [hnil] at h
  simp [endsSolid] at h

theorem isTrimmable_digit (m : Nat) (h : m < 10) :
    isTrimmable (Char.ofNat (48 + m)) = false := by
  interval_cases m <;> decide

theorem natDecimalAux_solid (n fuel : Nat) (h : 1 ≤ fuel) :
    endsSolid (natDecimalAux n fuel) = true := by
  cases fuel with
  | zero => omega
  | succ f =>
    rw [natDecimalAux]
    by_cases hn : n < 10
    · simp only [hn, if_true]
      have := isTrimmable_digit n hn
      simp [endsSolid, this]
    · simp only [hn, if_false]
      rw [endsSolid_concat]
      have := isTrimmable_digit (n % 10) (Nat.mod_lt _ (by omega))
      simp [this]

theorem natDecimal_solid (n : Nat) : endsSolid (natDecimal n) = true :=
  natDecimalAux_solid n (n + 1) (by omega)

theorem printValue_solid (v : KValue) : endsSolid (printValue v) = true := by
  cases v with
  | null => decide
  | bool b => cases b <;> decide
  | num n =>
    cases n with
    | nan => decide
    | posInf => decide
    | negInf => decide
    | int k =>
      rw [printValue, intDecimal]
      by_cases hk : k < 0
      · simp only [hk, if_true]
        have h := endsSolid_append_right ['-'] _ (natDecimal_solid k.natAbs)
        simpa using h
      · simp only [hk, if_false]
        exact natDecimal_solid _
  | str s =>
    show endsSolid (if minHashes s = 0 then jsonStringify s
      else rawStringForm (minHashes s) s) = true
    by_cases hz : minHashes s = 0
    · rw [if_pos hz, jsonStringify]
      refine endsSolid_cons _ _ ?_
      simp only [List.append_eq]
      rw [endsSolid_concat]
      decide
    · rw [if_neg hz]
      obtain ⟨j, hj⟩ : ∃ j, minHashes s = j + 1 :=
        ⟨minHashes s - 1, by omega⟩
      rw [hj, rawStringForm]
      have hrep : endsSolid (List.replicate (j + 1) '#') = true := by
        rw [List.replicate_succ', endsSolid_concat]
        decide
      simp only [List.append_assoc, List.cons_append]
      refine endsSolid_append_right _ _ ?_
      refine endsSolid_cons _ _ ?_
      exact endsSolid_append_right _ _ (endsSolid_cons _ _ hrep)

theorem printEntry_solid (e : KEntry) : endsSolid (printEntry e) = true := by
  rw [printEntry]
  simp only [List.append_assoc]
  exact endsSolid_append_right _ _ (endsSolid_append_right _ _ (printValue_solid e.value))

theorem dropWhile_reverse_solid {l : List Char} (h : endsSolid l = true) :
    l.reverse.dropWhile isTrimmable = l.reverse := by
  rcases List.eq_nil_or_concat l with rfl | ⟨l', c, rfl⟩
  · simp [endsSolid] at h
  · simp only [List.concat_eq_append] at h ⊢
    rw [endsSolid_concat] at h
    simp only [List.reverse_append, List.reverse_singleton, List.singleton_append]
    rw [List.dropWhile_cons]
    simp only [Bool.not_eq_true'] at h
    rw [h]
    simp

/-- C10: when a node's trailing trivia ends with a semicolon, the final
semicolon is removed before the trailing trivia is reconciled — printing the
node is identical to printing it with the semicolon already deleted — and
the rendered document always ends on a line break (the printer appends a
final hardline, and nodes are joined by hardlines), so the node terminator
`;` is never re-emitted. -/
theorem nodeTrailing_semicolon (tokD : List Char → List DTok)
    (tokN : List Char → List NTok) (first : Bool) (n : KNode) (t : List Char)
    (h1 : n.trailing = some t) (h2 : t.getLast? = some ';')
    (h3 : ¬ t.dropLast.getLast? = some ';') (h4 : tokD [] = []) :
    printNodeD tokD tokN first n
      = printNodeD tokD tokN first { n with trailing := some t.dropLast } ∧
    ∀ (w : Nat) (d : KDocT),
      (renderPlugin tokD tokN w d).getLast? = some '\n' := by
  constructor
  · have htne : t ≠ [] := by
      intro hnil
      rw [hnil] at h2
      simp at h2
    rw [printNodeD, printNodeD]
    have hlead : nodeLeadingParts tokD first { n with trailing := some t.dropLast }
        = nodeLeadingParts tokD first n := rfl
    have hmain : nodeMainPart tokN { n with trailing := some t.dropLast }
        = nodeMainPart tokN n := rfl
    rw [hlead, hmain]
    have htrail : nodeTrailingParts tokD { n with trailing := some t.dropLast }
        = nodeTrailingParts tokD n := by
      rw [nodeTrailingParts, nodeTrailingParts, h1]
      show (if truthyS (some t.dropLast) then
          printLineSpaceD (tokD (stripSemicolon (orEmpty (some t.dropLast)))) false
        else []) = _
      cases hd : t.dropLast with
      | nil =>
        have ht : truthyS (some t) = true := by
          cases t with
          | nil => exact absurd rfl htne
          | cons c r => rfl
        rw [ht, if_pos rfl]
        show ([] : List Doc) = printLineSpaceD (tokD (stripSemicolon t)) false
        rw [stripSemicolon, if_pos h2, hd, h4]
        rfl
      | cons c r =>
        have ht : truthyS (some t) = true := by
          cases t with
          | nil => exact absurd rfl htne
          | cons c' r' => rfl
        rw [ht, if_pos rfl]
        show printLineSpaceD (tokD (stripSemicolon (c :: r))) false
          = printLineSpaceD (tokD (stripSemicolon t)) false
        rw [stripSemicolon, stripSemicolon, if_pos h2, hd]
        rw [if_neg (by rw [← hd]; exact h3)]
    rw [htrail]
  · intro w d
    rw [renderPlugin, printPluginDoc, exec_appendC,
      show ((0, RMode.brk, printDocumentD tokD tokN d)
          :: [(0, RMode.brk, (Doc.hardline : Doc))])
        = [(0, RMode.brk, printDocumentD tokD tokN d)]
          ++ [(0, RMode.brk, (Doc.hardline : Doc))] from rfl,
      exec_append_cmds, exec_hardlineC, exec_nil_cmds]
    show (emitNl 0 _).reverse.getLast? = some '\n'
    rw [emitNl]
    simp [List.getLast?_reverse]

/-- Witness for C10: a concrete node whose trailing trivia is exactly `;`
prints identically to the same node with the semicolon deleted. -/
theorem nodeTrailing_semicolon_witness :
    printNodeD (fun _ => []) (fun _ => []) true
        { name := ['c', 'h', 'i', 'l', 'd'], tag := none, betweenTagAndName := none,
          entries := [], children := none, leading := none, beforeChildren := none,
          trailing := some [';'] }
      = printNodeD (fun _ => []) (fun _ => []) true
        { name := ['c', 'h', 'i', 'l', 'd'], tag := none, betweenTagAndName := none,
          entries := [], children := none, leading := none, beforeChildren := none,
          trailing := some ([';'].dropLast) } :=
  (nodeTrailing_semicolon (fun _ => []) (fun _ => []) true _ [';'] rfl (by decide)
    (by decide) rfl).1

theorem forcesBreak_groupInner_nilHeader (name : List Char) (a : Nat) :
    forcesBreak (groupInner name a []) = false := by
  simp [groupInner, joinDoc, List.intersperse, Doc.ofList, forcesBreak, continuationDoc]

theorem flatW_groupInner_nilHeader (name : List Char) (a : Nat) :
    flatW (groupInner name a []) = getStringWidth name + 1 := by
  simp [groupInner, joinDoc, List.intersperse, Doc.ofList, flatW, continuationDoc]

/-- C4: a node whose only entry is an unnamed argument with no leading
comment fuses that argument onto the printed name: the header-item list is
empty — never a two-item breakable header — and, when the line fits the
width budget, the whole node renders as `name value` on one line. -/
theorem fusedArgument_spec (tokD : List Char → List DTok)
    (tokN : List Char → List NTok) (n : KNode) (e : KEntry) (w : Nat)
    (he : n.entries = [e]) (hname : e.name = none) (hlead : entryLeadingOk e = true)
    (hnl : n.leading = none) (hnt : n.trailing = none)
    (hbc : n.beforeChildren = none) (hch : n.children = none)
    (hw : getStringWidth (nodeDisplayName n) + 1 ≤ w) :
    nodeFuses n = true ∧
    nodeDisplayName n = nodeBaseName n ++ ' ' :: printEntry e ∧
    nodeHeaderItems tokN n = [] ∧
    renderPlugin tokD tokN w ⟨[n], none⟩ = nodeDisplayName n ++ ['\n'] := by
  have hf : nodeFuses n = true := by
    rw [nodeFuses, he]
    simp [hname, hlead]
  have hd : nodeDisplayName n = nodeBaseName n ++ ' ' :: printEntry e := by
    rw [nodeDisplayName, he]
    simp [hf]
  have hrest : nodeRestEntries n = [] := by
    rw [nodeRestEntries, hf, he]
    rfl
  have hstate : nodeHeaderState tokN n = { items := [], attached := false } := by
    rw [nodeHeaderState, hrest, hbc]
    rfl
  have hitems : nodeHeaderItems tokN n = [] := by
    rw [nodeHeaderItems, hstate]
  refine ⟨hf, hd, hitems, ?_⟩
  have hmain : nodeMainPart tokN n
      = Doc.group (groupInner (nodeDisplayName n) (nodeAlign n) []) := by
    rw [nodeMainPart, hstate]
    simp [nodeHasChildren, nodeChildTrailing, hch]
  have hnode : printNodeD tokD tokN true n
      = Doc.append (Doc.group (groupInner (nodeDisplayName n) (nodeAlign n) []))
          Doc.nil := by
    rw [printNodeD, hmain, nodeLeadingParts, nodeTrailingParts, hnl, hnt]
    rfl
  have hdocD : printDocumentD tokD tokN ⟨[n], none⟩
      = Doc.append (Doc.append (printNodeD tokD tokN true n) Doc.nil) Doc.nil := by
    rw [printDocumentD, printNodesD]
    rfl
  rw [renderPlugin, printPluginDoc, hdocD, hnode]
  rw [exec_appendC, exec_appendC, exec_appendC, exec_appendC, exec_groupC]
  have hsolid : endsSolid (nodeDisplayName n) = true := by
    rw [hd]
    exact endsSolid_append_right _ _ (endsSolid_cons _ _ (printEntry_solid e))
  rw [forcesBreak_groupInner_nilHeader, flatW_groupInner_nilHeader]
  have hcond : (false || decide (w < (⟨0, []⟩ : RState).col
      + (getStringWidth (nodeDisplayName n) + 1))) = false := by
    simp
    omega
  rw [hcond]
  rw [show groupInner (nodeDisplayName n) (nodeAlign n) []
      = Doc.append (Doc.text (nodeDisplayName n))
          (Doc.append continuationDoc
            (Doc.append
              (Doc.ifBreak
                (Doc.alignD (nodeAlign n)
                  (Doc.append Doc.line (Doc.append Doc.nil Doc.nil)))
                (Doc.append Doc.line (Doc.append Doc.nil Doc.nil)))
              Doc.nil)) from rfl]
  rw [exec_appendC, exec_textC, exec_appendC]
  rw [show continuationDoc = Doc.ifBreak (Doc.text [' ', '\\']) Doc.nil from rfl]
  simp only [Bool.false_eq_true, if_false]
  rw [exec_ifBreakFlat, exec_nilC, exec_appendC, exec_ifBreakFlat, exec_appendC,
    exec_lineFlat, exec_appendC, exec_nilC, exec_nilC, exec_nilC, exec_nilC,
    exec_nilC, exec_nilC, exec_hardlineC, exec_nil_cmds]
  show (emitNl 0 (' ' :: ((nodeDisplayName n).reverse ++ []))).reverse
    = nodeDisplayName n ++ ['\n']
  rw [emitNl]
  simp only [List.replicate, List.nil_append, List.append_nil]
  rw [List.dropWhile_cons]
  simp only [show isTrimmable ' ' = true from rfl, if_true]
  rw [dropWhile_reverse_solid hsolid]
  simp

/-- Witness for C4: the node `node "value"` renders as one line at width
80. -/
theorem fusedArgument_spec_witness :
    renderPlugin (fun _ => []) (fun _ => []) 80 ⟨[sampleFusedNode], none⟩
      = nodeDisplayName sampleFusedNode ++ ['\n'] :=
  (fusedArgument_spec (fun _ => []) (fun _ => []) sampleFusedNode sampleFusedEntry 80
    rfl rfl (by decide) rfl rfl rfl rfl (by decide)).2.2.2

theorem mapLast_append (f : List Doc → List Doc) (l : List (List Doc)) (x : List Doc) :
    mapLast f (l ++ [x]) = l ++ [f x] := by
  induction l with
  | nil => rfl
  | cons y ys ih =>
    cases ys with
    | nil => rfl
    | cons z zs =>
      show y :: mapLast f ((z :: zs) ++ [x]) = y :: ((z :: zs) ++ [f x])
      rw [ih]

theorem foldl_entries_attached (tokN : List Char → List NTok) :
    ∀ (es : List KEntry) (s : HState), (∀ e ∈ es, truthyS e.leading = false) →
      s.attached = true →
      (es.foldl (entryFoldStep tokN) s).items
        = (if es = [] then s.items
           else mapLast (· ++ [continuationDoc]) s.items ++ headerOf (es.map printEntry))
        ∧ (es.foldl (entryFoldStep tokN) s).attached = true := by
  intro es
  induction es with
  | nil =>
    intro s _ hs
    exact ⟨by simp, hs⟩
  | cons e rest ih =>
    intro s hlead hs
    have hstep : entryFoldStep tokN s e
        = { items := mapLast (· ++ [continuationDoc]) s.items
              ++ [[Doc.text (printEntry e)]], attached := true } := by
      rw [entryFoldStep]
      rw [if_neg (by simp [hlead e (by simp)])]
      rw [pushItem]
      rw [pushCont, if_pos hs]
    rw [List.foldl_cons, hstep]
    obtain ⟨hitems, hatt⟩ := ih
      { items := mapLast (· ++ [continuationDoc]) s.items
          ++ [[Doc.text (printEntry e)]], attached := true }
      (fun x hx => hlead x (by simp [hx])) rfl
    refine ⟨?_, hatt⟩
    rw [hitems]
    cases hr : rest with
    | nil => simp [headerOf]
    | cons q qs =>
      rw [if_neg (by simp)]
      rw [if_neg (by simp)]
      rw [mapLast_append]
      rw [List.append_assoc]
      rfl

theorem foldl_entries_init (tokN : List Char → List NTok) (es : List KEntry)
    (h : ∀ e ∈ es, truthyS e.leading = false) :
    (es.foldl (entryFoldStep tokN) { items := [], attached := false }).items
      = headerOf (es.map printEntry) := by
  cases es with
  | nil => rfl
  | cons e rest =>
    have hstep : entryFoldStep tokN { items := [], attached := false } e
        = { items := [[Doc.text (printEntry e)]], attached := true } := by
      rw [entryFoldStep]
      rw [if_neg (by simp [h e (by simp)])]
      rfl
    rw [List.foldl_cons, hstep]
    obtain ⟨hitems, -⟩ := foldl_entries_attached tokN rest
      { items := [[Doc.text (printEntry e)]], attached := true }
      (fun x hx => h x (by simp [hx])) rfl
    rw [hitems]
    cases hr : rest with
    | nil => rfl
    | cons q qs =>
      rw [if_neg (by simp)]
      show [[Doc.text (printEntry e), continuationDoc]]
          ++ headerOf ((q :: qs).map printEntry)
        = headerOf ((e :: q :: qs).map printEntry)
      rfl

theorem nodeHeaderItems_of_entries (tokN : List Char → List NTok) (n : KNode)
    (hbc : n.beforeChildren = none)
    (hlead : ∀ e ∈ nodeRestEntries n, truthyS e.leading = false) :
    nodeHeaderItems tokN n = headerOf ((nodeRestEntries n).map printEntry) := by
  rw [nodeHeaderItems, nodeHeaderState, hbc]
  rw [if_neg (by simp [truthyS])]
  exact foldl_entries_init tokN _ hlead

theorem emitNl_backslash (i : Nat) (X : List Char) :
    emitNl i ('\\' :: X) = List.replicate i ' ' ++ '\n' :: '\\' :: X := by
  rw [emitNl, List.dropWhile_cons]
  simp [show isTrimmable '\\' = false from rfl]

theorem brokenTail_solid (a : Nat) :
    ∀ ps : List (List Char), ps ≠ [] → (∀ p ∈ ps, endsSolid p = true) →
    endsSolid (brokenTail a ps) = true := by
  intro ps
  induction ps with
  | nil => intro h; exact absurd rfl h
  | cons p rest ih =>
    intro _ hall
    cases rest with
    | nil => exact hall p (by simp)
    | cons q qs =>
      rw [brokenTail]
      have := ih (by simp) (fun x hx => hall x (by simp [hx]))
      simp only [List.append_assoc]
      exact endsSolid_append_right _ _ (endsSolid_append_right _ _
        (endsSolid_append_right _ _ this))

theorem exec_joined (w a : Nat) :
    ∀ ps : List (List Char), ps ≠ [] → ∀ (L : List RCmd) (st : RState),
      exec w ((a, RMode.brk, joinDoc Doc.line (itemsDocs ps)) :: L) st
        = exec w L ⟨brokenCol a st.col ps, (brokenTail a ps).reverse ++ st.out⟩ := by
  intro ps
  induction ps with
  | nil => intro h; exact absurd rfl h
  | cons p rest ih =>
    intro _ L st
    cases rest with
    | nil =>
      rw [show joinDoc Doc.line (itemsDocs [p])
          = Doc.append (Doc.append (Doc.text p) Doc.nil) Doc.nil from rfl]
      rw [exec_appendC, exec_appendC, exec_textC, exec_nilC, exec_nilC]
      rfl
    | cons q qs =>
      have hjoin : joinDoc Doc.line (itemsDocs (p :: q :: qs))
          = Doc.append
              (Doc.append (Doc.text p)
                (Doc.append (Doc.ifBreak (Doc.text [' ', '\\']) Doc.nil) Doc.nil))
              (Doc.append Doc.line (joinDoc Doc.line (itemsDocs (q :: qs)))) := by
        cases qs with
        | nil => rfl
        | cons z zs => rfl
      rw [hjoin]
      rw [exec_appendC, exec_appendC, exec_textC, exec_appendC, exec_ifBreakBrk,
        exec_textC, exec_nilC, exec_appendC, exec_lineBrk]
      show exec w ((a, RMode.brk, joinDoc Doc.line (itemsDocs (q :: qs))) :: L)
          ⟨a, emitNl a ('\\' :: ' ' :: (p.reverse ++ st.out))⟩ = _
      rw [ih (by simp) L _]
      rw [emitNl_backslash]
      show exec w L _ = exec w L _
      congr 1
      show (⟨brokenCol a a (q :: qs),
          (brokenTail a (q :: qs)).reverse
            ++ (List.replicate a ' ' ++ '\n' :: '\\' :: ' ' :: (p.reverse ++ st.out))⟩ : RState)
        = ⟨brokenCol a st.col (p :: q :: qs),
            (brokenTail a (p :: q :: qs)).reverse ++ st.out⟩
      congr 1
      rw [show brokenTail a (p :: q :: qs)
          = p ++ [' ', '\\', '\n'] ++ List.replicate a ' ' ++ brokenTail a (q :: qs)
          from rfl]
      simp [List.reverse_append, List.append_assoc]

theorem dropWhile_reverse_append_solid {l : List Char} (Y : List Char)
    (h : endsSolid l = true) :
    (l.reverse ++ Y).dropWhile isTrimmable = l.reverse ++ Y := by
  rcases List.eq_nil_or_concat l with rfl | ⟨l', c, rfl⟩
  · simp [endsSolid] at h
  · simp only [List.concat_eq_append] at h ⊢
    rw [endsSolid_concat] at h
    simp only [List.reverse_append, List.reverse_singleton, List.singleton_append,
      List.cons_append]
    rw [List.dropWhile_cons]
    simp only [Bool.not_eq_true'] at h
    rw [h]
    simp

/-- C5: a node whose header group renders in broken mode places each header
item on its own line, ends every line before a following item with the
continuation ` \`, and aligns every item at exactly name-width + 1 columns
(one character past the end of the node's printed name, measured before
argument fusion): the output is the name line ending in ` \`, then the
`brokenTail` block in which every item sits behind `nameAlign` spaces. -/
theorem brokenHeader_spec (tokD : List Char → List DTok)
    (tokN : List Char → List NTok) (n : KNode) (w : Nat)
    (hne : nodeRestEntries n ≠ [])
    (hlead : ∀ e ∈ nodeRestEntries n, truthyS e.leading = false)
    (hnl : n.leading = none) (hnt : n.trailing = none)
    (hbc : n.beforeChildren = none) (hch : n.children = none)
    (hbrk : w < flatW (groupInner (nodeDisplayName n) (nodeAlign n)
        (nodeHeaderItems tokN n))) :
    renderPlugin tokD tokN w ⟨[n], none⟩
      = nodeDisplayName n ++ [' ', '\\', '\n']
          ++ List.replicate (nodeAlign n) ' '
          ++ brokenTail (nodeAlign n) ((nodeRestEntries n).map printEntry)
          ++ ['\n'] := by
  have hitems := nodeHeaderItems_of_entries tokN n hbc hlead
  have hpsne : (nodeRestEntries n).map printEntry ≠ [] := by simpa using hne
  have hsolidall : ∀ p ∈ (nodeRestEntries n).map printEntry, endsSolid p = true := by
    intro p hp
    rcases List.mem_map.1 hp with ⟨e, -, rfl⟩
    exact printEntry_solid e
  have hmain : nodeMainPart tokN n
      = Doc.group (groupInner (nodeDisplayName n) (nodeAlign n)
          (nodeHeaderItems tokN n)) := by
    rw [nodeMainPart]
    simp [nodeHasChildren, nodeChildTrailing, hch]
    rfl
  have hnode : printNodeD tokD tokN true n
      = Doc.append (Doc.group (groupInner (nodeDisplayName n) (nodeAlign n)
          (nodeHeaderItems tokN n))) Doc.nil := by
    rw [printNodeD, hmain, nodeLeadingParts, nodeTrailingParts, hnl, hnt]
    rfl
  have hdocD : printDocumentD tokD tokN ⟨[n], none⟩
      = Doc.append (Doc.append (printNodeD tokD tokN true n) Doc.nil) Doc.nil := by
    rw [printDocumentD, printNodesD]
    rfl
  rw [renderPlugin, printPluginDoc, hdocD, hnode]
  rw [exec_appendC, exec_appendC, exec_appendC, exec_appendC, exec_groupC]
  have hcond : (forcesBreak (groupInner (nodeDisplayName n) (nodeAlign n)
        (nodeHeaderItems tokN n))
      || decide (w < (⟨0, []⟩ : RState).col
        + flatW (groupInner (nodeDisplayName n) (nodeAlign n)
            (nodeHeaderItems tokN n)))) = true := by
    simp only [Bool.or_eq_true, decide_eq_true_eq]
    right
    simpa using hbrk
  rw [hcond, if_pos rfl]
  rw [hitems]
  rw [show groupInner (nodeDisplayName n) (nodeAlign n)
        (headerOf ((nodeRestEntries n).map printEntry))
      = Doc.append (Doc.text (nodeDisplayName n))
          (Doc.append (Doc.ifBreak (Doc.text [' ', '\\']) Doc.nil)
            (Doc.append
              (Doc.ifBreak
                (Doc.alignD (nodeAlign n)
                  (Doc.append Doc.line
                    (Doc.append
                      (joinDoc Doc.line (itemsDocs ((nodeRestEntries n).map printEntry)))
                      Doc.nil)))
                (Doc.append Doc.line
                  (Doc.append
                    (joinDoc Doc.line (itemsDocs ((nodeRestEntries n).map printEntry)))
                    Doc.nil)))
              Doc.nil)) from rfl]
  rw [exec_appendC, exec_textC, exec_appendC, exec_ifBreakBrk, exec_textC,
    exec_appendC, exec_ifBreakBrk, exec_alignC, exec_appendC, exec_lineBrk]
  show (exec w ((0 + nodeAlign n, RMode.brk,
      Doc.append (joinDoc Doc.line (itemsDocs ((nodeRestEntries n).map printEntry)))
        Doc.nil) :: _)
    ⟨0 + nodeAlign n,
      emitNl (0 + nodeAlign n)
        ('\\' :: ' ' :: ((nodeDisplayName n).reverse ++ []))⟩).out.reverse = _
  rw [emitNl_backslash]
  rw [exec_appendC]
  rw [exec_joined w (0 + nodeAlign n) _ hpsne]
  rw [exec_nilC, exec_nilC, exec_nilC, exec_nilC, exec_nilC, exec_hardlineC,
    exec_nil_cmds]
  show (emitNl 0
      ((brokenTail (0 + nodeAlign n) ((nodeRestEntries n).map printEntry)).reverse
        ++ (List.replicate (0 + nodeAlign n) ' '
          ++ '\n' :: '\\' :: ' ' :: ((nodeDisplayName n).reverse ++ [])))).reverse = _
  have hT : endsSolid
      (brokenTail (0 + nodeAlign n) ((nodeRestEntries n).map printEntry)) = true :=
    brokenTail_solid _ _ hpsne hsolidall
  rw [emitNl, dropWhile_reverse_append_solid _ hT]
  simp [List.reverse_append, List.append_assoc]

/-- Witness for C5: the node `node a=#true b=#false` at width 5 renders with
the name line continuation-escaped and both entries on their own lines,
aligned 5 columns in (one past the 4-character name). -/
theorem brokenHeader_spec_witness :
    renderPlugin (fun _ => []) (fun _ => []) 5 ⟨[sampleBrokenNode], none⟩
      = nodeDisplayName sampleBrokenNode ++ [' ', '\\', '\n']
          ++ List.replicate (nodeAlign sampleBrokenNode) ' '
          ++ brokenTail (nodeAlign sampleBrokenNode)
              ((nodeRestEntries sampleBrokenNode).map printEntry)
          ++ ['\n'] :=
  brokenHeader_spec (fun _ => []) (fun _ => []) sampleBrokenNode 5 (by decide)
    (by decide) rfl rfl rfl rfl (by decide)

end KdlPrinter
